import Mathlib

/-!
Verification of the tail-eliding engine of coreutils 5.2.1 `head.c`
(`src/testcases/coreutils-5.2.1/src/head.c`).

Shallow embedding conventions:
* Bytes are `Nat` (values of `char` as unsigned); `10` is the newline byte.
* `size_t` / `uintmax_t` arithmetic that can wrap is made explicit with
  `% U64` (we model an LP64/uintmax_t-64 machine); everywhere else the C
  quantities are nonnegative and in range, so plain `Nat` is used.
* The platform constants `BUFSIZ` (stdio buffer size, used by `copy_fd`
  and the line eliders), `READ_BUFSIZE` (= `HEAD_TAIL_PIPE_READ_BUFSIZE`,
  default `BUFSIZ`) and `HEAD_TAIL_PIPE_BYTECOUNT_THRESHOLD` (default
  1024*1024, compile-time checked to be at least `2 * READ_BUFSIZE`) are
  parameters `bufsz`, `B`, `T` of the model, mirroring that the source
  allows overriding them at build time.
* A read from a stream delivers `min(requested, available)` bytes
  (`full_read` semantics); for `copy_fd`, whose contract quantifies over
  arbitrary source behaviour, the source is a list of segments so that
  short reads, early EOF and trailing read errors are all expressible.
* The sink (stdout) is modelled by a flag `sinkOk`: a good sink accepts
  every `fwrite` in full; a bad sink accepts nothing (fwrite returns 0).
  Output is the list of bytes actually written, in order.
-/

/-- 2^64, the modulus of `size_t` / `uintmax_t` arithmetic in the model. -/
def U64 : Nat := 2 ^ 64

/-- OFF_T_MAX: `main` (head.c:1073) rejects byte-elide counts above this. -/
def OFF_T_MAX : Nat := 2 ^ 63 - 1

/-- Status results of `copy_fd` (head.c:76-82, `enum Copy_fd_status`). -/
inductive CopyStatus where
  | ok
  | readError
  | writeError
  | unexpectedEof
  deriving DecidableEq, Repr

/-- Result of `copy_fd`: the status and the bytes actually written to the
sink, in order (partial output stands on error). -/
structure CopyRes where
  status : CopyStatus
  written : List Nat
  deriving DecidableEq, Repr

/-- Model of `copy_fd` (head.c:180-204).  `bufsz` is `BUFSIZ` (the size of
the stack buffer `buf`), `sinkOk` the sink behaviour, `errAtEnd` whether
the source signals `SAFE_READ_ERROR` once its segments are exhausted, and
`n` is `n_bytes`.  The source is a list of segments: `safe_read` with
request `req` delivers `take req` of the first segment and the rest of
that segment remains for the next read; an empty first segment (or an
exhausted segment list with `errAtEnd = false`) is an end-of-stream
(`safe_read` returns 0).  The C loop: while `0 < n_bytes`, read
`min (buf_size, n_bytes)`; a failed read returns `COPY_FD_READ_ERROR`; a
0-byte read with bytes still owed returns `COPY_FD_UNEXPECTED_EOF`; a
short `fwrite` returns `COPY_FD_WRITE_ERROR`; otherwise loop. -/
def copy_fd (bufsz : Nat) (sinkOk : Bool) (errAtEnd : Bool) :
    List (List Nat) → Nat → CopyRes
  | _, 0 => ⟨.ok, []⟩
  | [], _ + 1 => ⟨if errAtEnd then .readError else .unexpectedEof, []⟩
  | bs :: rest, n + 1 =>
    if hdel : (bs.take (min bufsz (n + 1))).length = 0 then
      ⟨.unexpectedEof, []⟩
    else if sinkOk then
      let req := min bufsz (n + 1)
      let segs' := if (bs.drop req).isEmpty then rest else bs.drop req :: rest
      let r := copy_fd bufsz sinkOk errAtEnd segs'
        (n + 1 - (bs.take (min bufsz (n + 1))).length)
      ⟨r.status, bs.take (min bufsz (n + 1)) ++ r.written⟩
    else
      ⟨.writeError, []⟩
  termination_by segs n => n
  decreasing_by
    have h1 : (bs.take (min bufsz (n + 1))).length ≠ 0 := hdel
    omega

/-- All bytes a segment source can deliver before its first end-of-stream:
the concatenation of the segments up to (excluding) the first empty one. -/
def availSegs : List (List Nat) → List Nat
  | [] => []
  | bs :: rest => if bs.isEmpty then [] else bs ++ availSegs rest

/-- Whether the first terminating event of a segment source is a read
error (`true`) or an end-of-stream (`false`). -/
def terminErr (errAtEnd : Bool) : List (List Nat) → Bool
  | [] => errAtEnd
  | bs :: rest => if bs.isEmpty then false else terminErr errAtEnd rest

/-- Loop of the small-N (double-buffer) strategy of `elide_tail_bytes_pipe`
(head.c:249-312).  `B` is `READ_BUFSIZE`, `E` is `n_elide`; each round
does `full_read` of `n_to_read = B + E` bytes into the current buffer
(`cur`); `prev` is the other buffer's contents from the previous round
(always a full `B + E` bytes when `first = false`).  On a short read
(EOF): if `n_read ≤ n_elide` and this is not the first round,
`delta = n_elide - n_read`.  Each round then writes the retained tail
`b[!i] + READ_BUFSIZE .. + (n_elide - delta)` of the previous buffer
(unless `first`), then the head `n_read - n_elide` bytes of the current
buffer when `n_elide < n_read`.  The `B + E = 0` guard makes the
recursion total; it is unreachable since `READ_BUFSIZE = BUFSIZ ≥ 1`
(the C loop would spin reading 0 bytes forever in that case). -/
def smallLoop (B E : Nat) (rest : List Nat) (prev : List Nat) (first : Bool) :
    List Nat :=
  if hBE : B + E = 0 then []
  else
    let cur := rest.take (B + E)
    let nRead := cur.length
    if hEof : (rest.take (B + E)).length < B + E then
      let delta := if nRead ≤ E ∧ first = false then E - nRead else 0
      let out1 := if first then [] else (prev.drop B).take (E - delta)
      let out2 := if E < nRead then cur.take (nRead - E) else []
      out1 ++ out2
    else
      let out1 := if first then [] else (prev.drop B).take E
      let out2 := if E < nRead then cur.take (nRead - E) else []
      out1 ++ out2 ++ smallLoop B E (rest.drop (B + E)) cur false
  termination_by rest.length
  decreasing_by
    simp only [List.length_take, List.length_drop, not_lt] at hEof ⊢
    omega

/-- The small-N double-buffer strategy (head.c:249-312), started with an
empty `prev` and `first = true`. -/
def small_strategy (B E : Nat) (input : List Nat) : List Nat :=
  smallLoop B E input [] true

/-- Number of slots in the ring of the large-N strategy (head.c:324-327):
`rem = READ_BUFSIZE - n_elide % READ_BUFSIZE`, `n_elide_round = n_elide +
rem`, `n_bufs = n_elide_round / READ_BUFSIZE + 1`. -/
def ringNBufs (B E : Nat) : Nat := (E + (B - E % B)) / B + 1

/-- State at exit of the ring-strategy read loop: accumulated output, the
ring slots, the loop indices `i`/`i_next` after the final for-update, the
`buffered_enough` flag, and the final `n_read`. -/
structure RingEnd where
  out : List Nat
  slots : List (List Nat)
  i : Nat
  iNext : Nat
  be : Bool
  nRead : Nat
  deriving DecidableEq, Repr

/-- Read loop of the large-N (ring) strategy (head.c:331-359).  Each
iteration reads up to `READ_BUFSIZE = B` bytes into slot `i` (the slot
keeps its old bytes past `n_read`, like the C buffer), sets
`buffered_enough` once `i + 1 == n_bufs`, and, when buffered enough,
writes `n_read` bytes from slot `i_next` (the oldest slot).  A short read
ends the loop after the for-update of `i`/`i_next`.  The `B = 0` guard
makes the recursion total and is unreachable (`READ_BUFSIZE ≥ 1`). -/
def ringLoop (B nbufs : Nat) (rest : List Nat) (slots : List (List Nat))
    (i iNext : Nat) (be : Bool) : RingEnd :=
  if hB : B = 0 then ⟨[], slots, i, iNext, be, 0⟩
  else
    let chunk := rest.take B
    let nRead := chunk.length
    let slots' := slots.set i (chunk ++ (slots.getD i []).drop nRead)
    let be' := be || decide (i + 1 = nbufs)
    let o := if be' then (slots'.getD iNext []).take nRead else []
    if hEof : (rest.take B).length < B then
      ⟨o, slots', iNext, (iNext + 1) % nbufs, be', nRead⟩
    else
      let r := ringLoop B nbufs (rest.drop B) slots' iNext ((iNext + 1) % nbufs) be'
      ⟨o ++ r.out, r.slots, r.i, r.iNext, r.be, r.nRead⟩
  termination_by rest.length
  decreasing_by
    simp only [List.length_take, List.length_drop, not_lt] at hEof ⊢
    omega

/-- The large-N ring strategy (head.c:313-404): run the read loop on
`ringNBufs B E` initially empty slots, then output the remainder
(head.c:361-395): `rem` more bytes.  With `buffered_enough`, they come
from slot `i` past `n_read` and possibly the start of slot `i_next`;
otherwise, only when the loop stopped exactly at `i + 1 == n_bufs`,
`x = n_read - y` bytes (with `y = READ_BUFSIZE - rem`) from slot
`i_next`.  That subtraction is `size_t` arithmetic and wraps modulo
`2^64` when `n_read < y`; a huge wrapped `x` makes the C `fwrite` read
far past the 1-block buffer (undefined behaviour).  The model lets
`take x` emit the bytes actually stored in the slot, an
under-approximation of what the doomed `fwrite` writes. -/
def ring_strategy (B E : Nat) (input : List Nat) : List Nat :=
  if B = 0 then []
  else
    let rem := B - E % B
    let nbufs := ringNBufs B E
    let e := ringLoop B nbufs input (List.replicate nbufs []) 0 1 false
    if rem ≠ 0 then
      if e.be then
        let left := B - e.nRead
        if rem < left then
          e.out ++ ((e.slots.getD e.i []).drop e.nRead).take rem
        else
          e.out ++ ((e.slots.getD e.i []).drop e.nRead).take left
                ++ (e.slots.getD e.iNext []).take (rem - left)
      else if e.i + 1 = nbufs then
        let y := B - rem
        let x := (U64 + e.nRead - y) % U64
        e.out ++ (e.slots.getD e.iNext []).take x
      else e.out
    else e.out

/-- Result of `elide_tail_bytes_pipe`: either the fatal
`number of bytes is large` exit (head.c:231-236, `error (EXIT_FAILURE, …)`
before any allocation or read), or normal completion with the bytes
written (the function returns 0 on every error-free stream). -/
inductive PipeOut where
  | fatalLarge
  | out (bytes : List Nat)
  deriving DecidableEq, Repr

/-- Model of `elide_tail_bytes_pipe` (head.c:209-405) on an error-free
stream.  `B` is `READ_BUFSIZE`, `T` is
`HEAD_TAIL_PIPE_BYTECOUNT_THRESHOLD`, `sizeMax` is `SIZE_MAX`.  First the
guard `SIZE_MAX < n_elide_0 + READ_BUFSIZE` (computed in `uintmax_t`,
i.e. modulo `2^64`) exits fatally; otherwise `size_t n_elide = n_elide_0`
(truncation modulo `SIZE_MAX + 1`, an identity once the guard passed for
in-range inputs) selects the double-buffer strategy when
`n_elide ≤ THRESHOLD` and the ring strategy otherwise. -/
def elide_tail_bytes_pipe (B T sizeMax : Nat) (nElide0 : Nat)
    (input : List Nat) : PipeOut :=
  if sizeMax < (nElide0 + B) % U64 then .fatalLarge
  else
    let nElide := nElide0 % (sizeMax + 1)
    if nElide ≤ T then .out (small_strategy B nElide input)
    else .out (ring_strategy B nElide input)

/-- An open file descriptor with its capabilities: the underlying byte
content, the current read offset, whether `fstat` succeeds and reports a
regular file, and whether `lseek` calls succeed. -/
structure Fd where
  content : List Nat
  pos : Nat
  isReg : Bool
  fstatOk : Bool
  seekOk : Bool
  deriving DecidableEq, Repr

/-- Result of the byte-mode dispatcher: fatal exit from the pipe guard,
or the function's `int` return status together with the bytes written. -/
inductive FileOut where
  | fatalLarge
  | res (status : Nat) (bytes : List Nat)
  deriving DecidableEq, Repr

/-- Model of `elide_tail_bytes_file` (head.c:414-464).  When
`presume_input_pipe` is set, `fstat` fails, or the file is not regular,
it delegates to `elide_tail_bytes_pipe` on the bytes readable from the
current position.  Otherwise it probes `current_pos`/`end_pos` with
`lseek` (a failure is reported and returns 1); if
`bytes_remaining ≤ n_elide` it succeeds with no output.  Then the source
executes `lseek (fd, (off_t) 0, current_pos)` — offset and whence are
swapped, so the *value of `current_pos` is used as the whence*: 0 acts as
`SEEK_SET` to offset 0 (correct only because `current_pos = 0`); 1
(`SEEK_CUR`) and 2 (`SEEK_END`) leave the position at `end_pos` (the
following `copy_fd` then sees an empty stream); any other value is
`EINVAL`, so `lseek` returns -1 and the function reports and returns 1.
Finally `copy_fd` copies `bytes_remaining - n_elide` bytes; a non-OK
status is diagnosed and returns 1. -/
def elide_tail_bytes_file (bufsz B T sizeMax : Nat) (sinkOk presume : Bool)
    (fd : Fd) (n : Nat) : FileOut :=
  if presume || !fd.fstatOk || !fd.isReg then
    match elide_tail_bytes_pipe B T sizeMax n (fd.content.drop fd.pos) with
    | .fatalLarge => .fatalLarge
    | .out o => .res 0 o
  else if !fd.seekOk then .res 1 []
  else
    let currentPos := fd.pos
    let endPos := fd.content.length
    let bytesRemaining := if currentPos ≤ endPos then endPos - currentPos else 0
    if bytesRemaining ≤ n then .res 0 []
    else
      match currentPos with
      | 0 =>
        let c := copy_fd bufsz sinkOk false [fd.content] (bytesRemaining - n)
        if c.status = .ok then .res 0 c.written else .res 1 c.written
      | 1 =>
        let c := copy_fd bufsz sinkOk false [fd.content.drop endPos]
          (bytesRemaining - n)
        if c.status = .ok then .res 0 c.written else .res 1 c.written
      | 2 =>
        let c := copy_fd bufsz sinkOk false [fd.content.drop endPos]
          (bytesRemaining - n)
        if c.status = .ok then .res 0 c.written else .res 1 c.written
      | _ + 3 => .res 1 []

/-- One buffer of the `LBUFFER` linked list of `elide_tail_lines_pipe`
(head.c:474-480): the bytes stored and the `nlines` field (newline count,
plus possibly the final incomplete line). -/
structure LBuf where
  bytes : List Nat
  nlines : Nat
  deriving DecidableEq, Repr

/-- Newline count of a chunk (head.c:504-513, the `memchr` loop). -/
def countNl (l : List Nat) : Nat := l.count 10

/-- Read loop of `elide_tail_lines_pipe` (head.c:495-543).  Reads up to
`BUFSIZ` bytes; a chunk that still fits in the last buffer (strictly
below `BUFSIZ` together) is coalesced onto it; otherwise a new buffer is
linked on and, if dropping the head buffer still leaves more than
`n_elide` buffered lines, the head is flushed to the sink and evicted.
Returns the flushed output, the live buffers and `total_lines`. -/
def linesPipeLoop (bufsz nElide : Nat) (rest : List Nat) (bufs : List LBuf)
    (total : Nat) : List Nat × List LBuf × Nat :=
  if hChunk : (rest.take bufsz).isEmpty then ([], bufs, total)
  else
    let chunk := rest.take bufsz
    let tl := countNl chunk
    let total' := total + tl
    let lastB := bufs.getLastD ⟨[], 0⟩
    if chunk.length + lastB.bytes.length < bufsz then
      linesPipeLoop bufsz nElide (rest.drop bufsz)
        (bufs.dropLast ++ [⟨lastB.bytes ++ chunk, lastB.nlines + tl⟩]) total'
    else
      let bufs' := bufs ++ [⟨chunk, tl⟩]
      let firstB := bufs'.headD ⟨[], 0⟩
      if nElide < total' - firstB.nlines then
        let r := linesPipeLoop bufsz nElide (rest.drop bufsz) bufs'.tail
          (total' - firstB.nlines)
        (firstB.bytes ++ r.1, r.2.1, r.2.2)
      else
        linesPipeLoop bufsz nElide (rest.drop bufsz) bufs' total'
  termination_by rest.length
  decreasing_by
  all_goals
    simp only [List.isEmpty_eq_true, List.take_eq_nil_iff, not_or,
      List.length_drop] at hChunk ⊢
    rcases hChunk with ⟨h1, h2⟩
    cases rest with
    | nil => exact absurd rfl h2
    | cons a l => cases bufsz with
      | zero => exact absurd rfl h1
      | succ b => simp; omega

/-- Post-EOF flush walk of `elide_tail_lines_pipe` (head.c:562-566): flush
and drop leading buffers while doing so still leaves more than `n_elide`
buffered lines; return the flushed bytes, the buffer the walk stopped at,
and the remaining `total_lines`.  The `[]` case is unreachable: the walk
always stops at the last live buffer, where `total_lines = tmp->nlines`. -/
def linesFlush (nElide : Nat) : List LBuf → Nat → List Nat × LBuf × Nat
  | [], total => ([], ⟨[], 0⟩, total)
  | b :: rest, total =>
    if nElide < total - b.nlines then
      let r := linesFlush nElide rest (total - b.nlines)
      (b.bytes ++ r.1, r.2.1, r.2.2)
    else ([], b, total)

/-- Position just after the `n`-th newline of a buffer (head.c:572-579,
the forward `memchr` walk): `some p` with `p` the byte offset after the
`n`-th newline, or `none` when the buffer holds fewer than `n` newlines —
in C, `p` is then NULL and the following
`fwrite (tmp->buffer, 1, p - tmp->buffer, stdout)` computes a wild
pointer difference (undefined behaviour). -/
def nthNlEnd : List Nat → Nat → Option Nat
  | _, 0 => some 0
  | [], _ + 1 => none
  | b :: rest, n + 1 =>
    if b = 10 then (nthNlEnd rest n).map (· + 1)
    else (nthNlEnd rest (n + 1)).map (· + 1)

/-- Model of `elide_tail_lines_pipe` (head.c:471-591) on an error-free
stream with a good sink (every write of this function is unchecked, so
the return status is 0 in all modelled runs).  `some out` is a normal
return writing `out`; `none` is the undefined-behaviour path where the
final partial buffer holds fewer newlines than requested (only possible
for `n_elide = 0` with no trailing newline) and the C code calls `fwrite`
with the pointer difference `NULL - buffer`. -/
def elide_tail_lines_pipe (bufsz nElide : Nat) (input : List Nat) :
    Option (List Nat) :=
  let s := linesPipeLoop bufsz nElide input [⟨[], 0⟩] 0
  let bufs := s.2.1
  let lastB := bufs.getLastD ⟨[], 0⟩
  let adj := !lastB.bytes.isEmpty && lastB.bytes.getLastD 0 != 10
  let bufs' := if adj then bufs.dropLast ++ [⟨lastB.bytes, lastB.nlines + 1⟩]
               else bufs
  let total' := if adj then s.2.2 + 1 else s.2.2
  let f := linesFlush nElide bufs' total'
  if nElide < f.2.2 then
    match nthNlEnd f.2.1.bytes (f.2.2 - nElide) with
    | some p => some (s.1 ++ f.1 ++ f.2.1.bytes.take p)
    | none => none
  else some (s.1 ++ f.1)

/-- Index of the last newline among the first `n` bytes of a buffer
(`memrchr (buffer, '\n', n)`, head.c:647). -/
def memrchrNl (buf : List Nat) : Nat → Option Nat
  | 0 => none
  | n + 1 => if buf.getD n 0 = 10 then some n else memrchrNl buf n

/-- A found index of `memrchrNl buf n` is below `n`. -/
theorem memrchrNl_lt {buf : List Nat} :
    ∀ {n i : Nat}, memrchrNl buf n = some i → i < n := by
  intro n
  induction n with
  | zero => intro i h; exact absurd h (by simp [memrchrNl])
  | succ m ih =>
    intro i h
    rw [memrchrNl] at h
    by_cases hb : buf.getD m 0 = 10
    · rw [if_pos hb] at h
      cases h
      exact Nat.lt_succ_self m
    · rw [if_neg hb] at h
      exact Nat.lt_succ_of_lt (ih h)

/-- Backward newline scan of one buffer-full (head.c:643-651, 683): from
`n = bytes_read` repeatedly `memrchr` for the last newline among the
first `n` bytes, set `n` to its index, and test `n_lines-- == 0`; returns
the cut index when the count is exhausted (`some idx`, the C then writes
`n + 1 = idx + 1` bytes), or `none` with the updated `n_lines` when the
buffer has no further newline. -/
def scanBack (buf : List Nat) : Nat → Nat → Option Nat × Nat
  | n, nLines =>
    match h : memrchrNl buf n with
    | none => (none, nLines)
    | some idx =>
      if nLines = 0 then (some idx, nLines)
      else scanBack buf idx (nLines - 1)
  termination_by n nLines => n
  decreasing_by
    exact memrchrNl_lt h

/-- Outer loop of `elide_tail_lines_seekable` (head.c:639-711).  The
buffer holds the `bytes_read` bytes at file offset `pos`.  If the
backward scan finds the cut: when `start_pos < pos`, seek back to
`start_pos` (a failure reports and returns 1) and `copy_fd`
`pos - start_pos` bytes (non-OK is diagnosed and returns 1), then write
the first `idx + 1` bytes of the buffer with an *unchecked* `fwrite` and
return 0.  If the scan runs out: at `pos = start_pos` return 0 with
nothing more to do; otherwise `pos -= BUFSIZ` (a negative result makes
the following `lseek` fail, reported as status 1), seek and read the
previous full block and repeat.  The `bufsz = 0` guard is unreachable
(`BUFSIZ ≥ 1`). -/
def linesSeekLoop (bufsz : Nat) (sinkOk : Bool) (fd : Fd) (startPos : Nat)
    (pos : Nat) (bytesRead : Nat) (buffer : List Nat) (nLines : Nat) :
    Nat × List Nat :=
  match scanBack buffer bytesRead nLines with
  | (some idx, _) =>
    if startPos < pos then
      if !fd.seekOk then (1, [])
      else
        let c := copy_fd bufsz sinkOk false [fd.content.drop startPos]
          (pos - startPos)
        if c.status ≠ .ok then (1, c.written)
        else (0, c.written ++ (if sinkOk then buffer.take (idx + 1) else []))
    else (0, if sinkOk then buffer.take (idx + 1) else [])
  | (none, nL') =>
    if pos = startPos then (0, [])
    else if hsz : bufsz = 0 then (1, [])
    else if hpos : pos < bufsz then (1, [])
    else
      if !fd.seekOk then (1, [])
      else
        let buffer' := (fd.content.drop (pos - bufsz)).take bufsz
        if buffer'.length = 0 then (0, [])
        else linesSeekLoop bufsz sinkOk fd startPos (pos - bufsz)
          buffer'.length buffer' nL'
  termination_by pos
  decreasing_by
    omega

/-- Model of `elide_tail_lines_seekable` (head.c:604-712).  Computes the
size of the last (possibly partial) block, seeks there (failure returns
1) and reads it; if the last byte read is not a newline, `--n_lines`
counts the incomplete line — this is a `uintmax_t` decrement, so
`n_lines = 0` wraps to `2^64 - 1`; then runs the backward scan loop. -/
def elide_tail_lines_seekable (bufsz : Nat) (sinkOk : Bool) (fd : Fd)
    (nLines0 : Nat) (startPos endPos : Nat) : Nat × List Nat :=
  if bufsz = 0 then (1, [])
  else
    let br0 := (endPos - startPos) % bufsz
    let br1 := if br0 = 0 then bufsz else br0
    let pos := endPos - br1
    if !fd.seekOk then (1, [])
    else
      let buffer := (fd.content.drop pos).take br1
      let bytesRead := buffer.length
      let nL :=
        if bytesRead ≠ 0 ∧ buffer.getLastD 0 ≠ 10 then
          (if nLines0 = 0 then U64 - 1 else nLines0 - 1)
        else nLines0
      linesSeekLoop bufsz sinkOk fd startPos pos bytesRead buffer nL

/-- Model of `elide_tail_lines_file` (head.c:718-749).  Unless
`presume_input_pipe` is set, probe `start_pos` (`SEEK_CUR`) and `end_pos`
(`SEEK_END`); when `0 ≤ start_pos < end_pos`, run the seekable variant
(the `end_pos == 0` early return is dead there); otherwise — including
when `lseek` fails — fall through to `elide_tail_lines_pipe`, reading
from wherever the probe left the descriptor (at `end_pos` if the probe
succeeded, at the original position if it failed or was skipped).  The
first component is the `int` return status, the second the written
output (`none` = the pipe variant's undefined-behaviour path). -/
def elide_tail_lines_file (bufsz : Nat) (sinkOk presume : Bool) (fd : Fd)
    (nElide : Nat) : Nat × Option (List Nat) :=
  if !presume && fd.seekOk then
    if fd.pos < fd.content.length then
      let r := elide_tail_lines_seekable bufsz sinkOk fd nElide fd.pos
        fd.content.length
      (r.1, some r.2)
    else
      (0, elide_tail_lines_pipe bufsz nElide (fd.content.drop fd.content.length))
  else
    (0, elide_tail_lines_pipe bufsz nElide (fd.content.drop fd.pos))

/-- Specification of byte-mode tail elision (spec.md §8): the first
`max (0, L - N)` bytes of the input. -/
def bytesElideSpec (n : Nat) (l : List Nat) : List Nat := l.take (l.length - n)

/-- Logical lines of a byte sequence (spec.md glossary): maximal runs up
to and including a newline, plus a final run with no trailing newline. -/
def splitLines : List Nat → List (List Nat)
  | [] => []
  | b :: rest =>
    if b = 10 then [10] :: splitLines rest
    else
      match splitLines rest with
      | [] => [[b]]
      | l :: ls => (b :: l) :: ls

/-- Specification of line-mode tail elision (spec.md §8): the input with
its last `n` logical lines removed. -/
def linesElideSpec (n : Nat) (l : List Nat) : List Nat :=
  ((splitLines l).take ((splitLines l).length - n)).flatten

/-- Unfolding of `copy_fd` for a good sink on a first segment that
delivers at least one byte. -/
theorem copy_fd_cons_good (bufsz : Nat) (e : Bool) (bs : List Nat)
    (rest : List (List Nat)) (m : Nat)
    (h : (bs.take (min bufsz (m + 1))).length ≠ 0) :
    copy_fd bufsz true e (bs :: rest) (m + 1) =
      ⟨(copy_fd bufsz true e
          (if (bs.drop (min bufsz (m + 1))).isEmpty then rest
           else bs.drop (min bufsz (m + 1)) :: rest)
          (m + 1 - (bs.take (min bufsz (m + 1))).length)).status,
        bs.take (min bufsz (m + 1)) ++
          (copy_fd bufsz true e
            (if (bs.drop (min bufsz (m + 1))).isEmpty then rest
             else bs.drop (min bufsz (m + 1)) :: rest)
            (m + 1 - (bs.take (min bufsz (m + 1))).length)).written⟩ := by
  rw [copy_fd, dif_neg h]
  exact rfl

theorem copy_fd_good_spec (bufsz : Nat) (e : Bool) (hb : 0 < bufsz) :
    ∀ n segs,
      (copy_fd bufsz true e segs n).written = (availSegs segs).take n ∧
      ((copy_fd bufsz true e segs n).status = CopyStatus.ok ↔
        n ≤ (availSegs segs).length) ∧
      ((copy_fd bufsz true e segs n).status = CopyStatus.unexpectedEof ↔
        (availSegs segs).length < n ∧ terminErr e segs = false) ∧
      ((copy_fd bufsz true e segs n).status = CopyStatus.readError ↔
        (availSegs segs).length < n ∧ terminErr e segs = true) := by
  intro n
  induction n using Nat.strong_induction_on with
  | _ n ih =>
    intro segs
    cases n with
    | zero =>
      refine ⟨by simp [copy_fd], by simp [copy_fd], by simp [copy_fd],
        by simp [copy_fd]⟩
    | succ m =>
      cases segs with
      | nil =>
        cases e <;> simp [copy_fd, availSegs, terminErr]
      | cons bs rest =>
        by_cases hbs : bs = []
        · subst hbs
          simp [copy_fd, availSegs, terminErr]
        · have hbl : 0 < bs.length := List.length_pos.mpr hbs
          have hbe : bs.isEmpty = false := by
            cases bs with
            | nil => exact absurd rfl hbs
            | cons a l => rfl
          have hd : (bs.take (min bufsz (m + 1))).length
              = min (min bufsz (m + 1)) bs.length := List.length_take _ _
          have hdpos : (bs.take (min bufsz (m + 1))).length ≠ 0 := by
            rw [hd]; omega
          have havail : availSegs (bs :: rest) = bs ++ availSegs rest := by
            rw [availSegs, hbe]; rfl
          have hterm : terminErr e (bs :: rest) = terminErr e rest := by
            rw [terminErr, hbe]; rfl
          rw [copy_fd_cons_good bufsz e bs rest m hdpos]
          by_cases hdr : (bs.drop (min bufsz (m + 1))).isEmpty = true
          · -- the whole of bs is delivered: bs.length ≤ req
            have hble : bs.length ≤ min bufsz (m + 1) := by
              rw [List.isEmpty_iff, List.drop_eq_nil_iff] at hdr
              exact hdr
            have htk : bs.take (min bufsz (m + 1)) = bs :=
              List.take_of_length_le hble
            have hlt : m + 1 - (bs.take (min bufsz (m + 1))).length < m + 1 := by
              rw [hd]; omega
            obtain ⟨ihw, ihok, iheof, iherr⟩ :=
              ih (m + 1 - (bs.take (min bufsz (m + 1))).length) hlt rest
            rw [if_pos hdr]
            rw [htk] at ihw ihok iheof iherr ⊢
            dsimp only
            have hble2 : bs.length ≤ m + 1 := by omega
            refine ⟨?_, ?_, ?_, ?_⟩
            · rw [ihw, havail, List.take_append_eq_append_take,
                List.take_of_length_le hble2]
            · rw [ihok, havail]
              simp only [List.length_append]
              omega
            · rw [iheof, havail, hterm]
              simp only [List.length_append]
              constructor <;> intro h1 <;> exact ⟨by omega, h1.2⟩
            · rw [iherr, havail, hterm]
              simp only [List.length_append]
              constructor <;> intro h1 <;> exact ⟨by omega, h1.2⟩
          · -- only req < bs.length bytes are delivered; rest pushed back
            have hgt : min bufsz (m + 1) < bs.length := by
              rw [List.isEmpty_iff, List.drop_eq_nil_iff] at hdr
              omega
            have htkl : (bs.take (min bufsz (m + 1))).length
                = min bufsz (m + 1) := by
              rw [hd]; omega
            have hdre : (bs.drop (min bufsz (m + 1))).isEmpty = false := by
              cases h2 : bs.drop (min bufsz (m + 1)) with
              | nil => exact absurd (by rw [h2]; rfl) hdr
              | cons a l => rfl
            have hlt : m + 1 - (bs.take (min bufsz (m + 1))).length < m + 1 := by
              rw [hd]; omega
            obtain ⟨ihw, ihok, iheof, iherr⟩ :=
              ih (m + 1 - (bs.take (min bufsz (m + 1))).length) hlt
                (bs.drop (min bufsz (m + 1)) :: rest)
            have havail2 : availSegs (bs.drop (min bufsz (m + 1)) :: rest)
                = bs.drop (min bufsz (m + 1)) ++ availSegs rest := by
              rw [availSegs, hdre]; rfl
            have hterm2 : terminErr e (bs.drop (min bufsz (m + 1)) :: rest)
                = terminErr e rest := by
              rw [terminErr, hdre]; rfl
            rw [if_neg (by simp [hdre])]
            rw [htkl] at ihw ihok iheof iherr ⊢
            dsimp only
            have hq1 : min bufsz (m + 1) ≤ bs.length := le_of_lt hgt
            have hTake : List.take (m + 1) (bs ++ availSegs rest)
                = List.take (min bufsz (m + 1)) bs
                  ++ List.take (m + 1 - min bufsz (m + 1))
                      (List.drop (min bufsz (m + 1)) bs ++ availSegs rest) := by
              have h3 : m + 1
                  = min bufsz (m + 1) + (m + 1 - min bufsz (m + 1)) := by omega
              calc List.take (m + 1) (bs ++ availSegs rest)
                  = List.take (min bufsz (m + 1) + (m + 1 - min bufsz (m + 1)))
                      (bs ++ availSegs rest) := by rw [← h3]
                _ = _ := by
                    rw [List.take_add, List.take_append_of_le_length hq1,
                      List.drop_append_of_le_length hq1]
            refine ⟨?_, ?_, ?_, ?_⟩
            · rw [ihw, havail, havail2, hTake]
            · rw [ihok, havail, havail2]
              simp only [List.length_append, List.length_drop]
              omega
            · rw [iheof, havail, havail2, hterm2, hterm]
              simp only [List.length_append, List.length_drop]
              constructor <;> intro h1 <;> exact ⟨by omega, h1.2⟩
            · rw [iherr, havail, havail2, hterm2, hterm]
              simp only [List.length_append, List.length_drop]
              constructor <;> intro h1 <;> exact ⟨by omega, h1.2⟩

theorem copy_fd_bad_sink (bufsz : Nat) (e : Bool) (hb : 0 < bufsz)
    (segs : List (List Nat)) (n : Nat) (hn : 0 < n)
    (ha : availSegs segs ≠ []) :
    copy_fd bufsz false e segs n = ⟨.writeError, []⟩ := by
  cases n with
  | zero => omega
  | succ m =>
    cases segs with
    | nil => simp [availSegs] at ha
    | cons bs rest =>
      have hbs : bs ≠ [] := by
        intro h
        rw [h] at ha
        simp [availSegs] at ha
      have hbl : 0 < bs.length := List.length_pos.mpr hbs
      have hdpos : (bs.take (min bufsz (m + 1))).length ≠ 0 := by
        rw [List.length_take]; omega
      rw [copy_fd, dif_neg hdpos]
      rfl

/-- C8: for every `n_bytes` and every behaviour of the source (arbitrary
segmentation, early end-of-stream, trailing read error), `copy_fd`
returns `COPY_FD_OK` iff exactly `n_bytes` bytes are read and written; it
returns `COPY_FD_UNEXPECTED_EOF` iff the source signals end-of-stream
before `n_bytes` bytes have been transferred; `COPY_FD_READ_ERROR` iff a
read fails before that; and on a failing sink `COPY_FD_WRITE_ERROR`
immediately, with nothing written.  In every case the bytes written are
`take n_bytes` of what the source delivered, in order: errors abort the
copy at once with no retry and partial output stands. -/
theorem c8_copy_fd_contract (bufsz : Nat) (e : Bool) (segs : List (List Nat))
    (n : Nat) (hb : 0 < bufsz) :
    ((copy_fd bufsz true e segs n).written = (availSegs segs).take n) ∧
    ((copy_fd bufsz true e segs n).status = CopyStatus.ok ↔
      n ≤ (availSegs segs).length) ∧
    ((copy_fd bufsz true e segs n).status = CopyStatus.unexpectedEof ↔
      (availSegs segs).length < n ∧ terminErr e segs = false) ∧
    ((copy_fd bufsz true e segs n).status = CopyStatus.readError ↔
      (availSegs segs).length < n ∧ terminErr e segs = true) ∧
    (0 < n → availSegs segs ≠ [] →
      copy_fd bufsz false e segs n = ⟨CopyStatus.writeError, []⟩) := by
  obtain ⟨h1, h2, h3, h4⟩ := copy_fd_good_spec bufsz e hb n segs
  exact ⟨h1, h2, h3, h4, fun hn ha => copy_fd_bad_sink bufsz e hb segs n hn ha⟩

/-- Witness for C8 at a concrete source: two segments delivering 3 bytes
with `n_bytes = 3` under `BUFSIZ = 2`. -/
theorem c8_copy_fd_contract_witness :
    0 < 2 ∧
    (((copy_fd 2 true false [[1, 2], [3]] 3).written
        = (availSegs [[1, 2], [3]]).take 3) ∧
     ((copy_fd 2 true false [[1, 2], [3]] 3).status = CopyStatus.ok ↔
       3 ≤ (availSegs [[1, 2], [3]]).length) ∧
     ((copy_fd 2 true false [[1, 2], [3]] 3).status
         = CopyStatus.unexpectedEof ↔
       (availSegs [[1, 2], [3]]).length < 3 ∧
         terminErr false [[1, 2], [3]] = false) ∧
     ((copy_fd 2 true false [[1, 2], [3]] 3).status = CopyStatus.readError ↔
       (availSegs [[1, 2], [3]]).length < 3 ∧
         terminErr false [[1, 2], [3]] = true) ∧
     (0 < 3 → availSegs [[1, 2], [3]] ≠ [] →
       copy_fd 2 false false [[1, 2], [3]] 3
         = ⟨CopyStatus.writeError, []⟩)) :=
  ⟨by decide, c8_copy_fd_contract 2 false [[1, 2], [3]] 3 (by decide)⟩

/-- C9: whenever the requested byte-elision count plus the read-buffer
size exceeds `SIZE_MAX` in exact arithmetic, `elide_tail_bytes_pipe`
exits fatally with the `number of bytes is large` diagnostic before
touching the input or allocating anything.  The bound `n ≤ OFF_T_MAX` is
enforced upstream by `main` (head.c:1073-1078) for every request that
reaches the engine in byte-elide mode, and `READ_BUFSIZE` is a small
platform constant; together they keep the `uintmax_t` sum
`n_elide_0 + READ_BUFSIZE` below `2^64`, so the guard's comparison is
exact. -/
theorem c9_count_overflow_fails_fast (B T sizeMax n : Nat) (input : List Nat)
    (hmain : n ≤ OFF_T_MAX) (hB : B ≤ 2 ^ 62) (hover : sizeMax < n + B) :
    elide_tail_bytes_pipe B T sizeMax n input = PipeOut.fatalLarge := by
  unfold elide_tail_bytes_pipe
  have h1 : (n + B) % U64 = n + B := by
    apply Nat.mod_eq_of_lt
    unfold OFF_T_MAX at hmain
    unfold U64
    omega
  rw [h1, if_pos hover]

/-- Witness for C9: a 32-bit `size_t` machine (`SIZE_MAX = 2^32 - 1`,
`READ_BUFSIZE = 8192`) with a 64-bit `off_t`, asked to elide `2^32`
bytes. -/
theorem c9_count_overflow_fails_fast_witness :
    2 ^ 32 ≤ OFF_T_MAX ∧ 8192 ≤ 2 ^ 62 ∧ 2 ^ 32 - 1 < 2 ^ 32 + 8192 ∧
    elide_tail_bytes_pipe 8192 (2 ^ 20) (2 ^ 32 - 1) (2 ^ 32) [97]
      = PipeOut.fatalLarge :=
  ⟨by decide, by decide, by decide,
    c9_count_overflow_fails_fast 8192 (2 ^ 20) (2 ^ 32 - 1) (2 ^ 32) [97]
      (by decide) (by decide) (by decide)⟩

/-- C10 counterexample: with `READ_BUFSIZE = 4` and a threshold of 8, the
elision count `n_elide = 12` lies above the threshold and the ring array
gets `ringNBufs 4 12 = 5` slots, not `ceil(12/4) + 1 = 4` as the claim
states. -/
theorem c10_counterexample_nbufs :
    8 < 12 ∧ ringNBufs 4 12 ≠ (12 + 4 - 1) / 4 + 1 := by
  constructor
  · decide
  · simp [ringNBufs]

/-- C10 amended: the ring array always has
`floor(n_elide / READ_BUFSIZE) + 2` slots; this equals
`ceil(n_elide / READ_BUFSIZE) + 1` exactly when `READ_BUFSIZE` does not
divide `n_elide`, and is one more when it does. -/
theorem c10_nbufs_amended (B E : Nat) (hB : 0 < B) :
    ringNBufs B E = E / B + 2 ∧
    (¬ (B ∣ E) → ringNBufs B E = (E + B - 1) / B + 1) := by
  have hfloor : ringNBufs B E = E / B + 2 := by
    unfold ringNBufs
    rcases Nat.eq_zero_or_pos (E % B) with h | h
    · rw [h, Nat.sub_zero, Nat.add_div_right _ hB]
    · have h3 : B * (E / B) + E % B = E := Nat.div_add_mod E B
      have h4 : E % B < B := Nat.mod_lt _ hB
      have h2 : E + (B - E % B) = B * (E / B) + B := by
        set t := B * (E / B) with ht
        omega
      rw [h2, Nat.add_div_right _ hB, Nat.mul_div_cancel_left _ hB]
  refine ⟨hfloor, fun hdvd => ?_⟩
  rw [hfloor]
  have hr : E % B ≠ 0 := fun h => hdvd (Nat.dvd_of_mod_eq_zero h)
  have h3 : B * (E / B) + E % B = E := Nat.div_add_mod E B
  have h4 : E % B < B := Nat.mod_lt _ hB
  have h7 : 1 ≤ E % B := Nat.pos_of_ne_zero hr
  have h8 : B * (E / B + 1) = B * (E / B) + B := by ring
  have h6 : E + B - 1 = (E % B - 1) + B * (E / B + 1) := by
    rw [h8]
    set t := B * (E / B) with ht
    omega
  rw [h6, Nat.add_mul_div_left _ _ hB,
    Nat.div_eq_of_lt (show E % B - 1 < B by omega)]
  omega

/-- Witness for C10 at `READ_BUFSIZE = 4`, `n_elide = 7`. -/
theorem c10_nbufs_amended_witness :
    0 < 4 ∧
    (ringNBufs 4 7 = 7 / 4 + 2 ∧
      (¬ ((4 : Nat) ∣ 7) → ringNBufs 4 7 = (7 + 4 - 1) / 4 + 1)) :=
  ⟨by decide, c10_nbufs_amended 4 7 (by decide)⟩

/-- C4 fails on the code: `elide_tail_bytes_file` on a regular file of 6
bytes positioned at offset 1 with `n_elide = 1`.  The source's
`lseek (fd, (off_t) 0, current_pos)` (head.c:450) has offset and whence
swapped, so with `current_pos = 1` it performs `lseek (fd, 0, SEEK_CUR)`
and leaves the descriptor at `end_pos` instead of seeking back; the
subsequent `copy_fd` hits end-of-stream at once and the call fails with
`file has shrunk too much` and empty output, instead of emitting the
4 bytes `(end - start) - n_elide` from offset `start` as the claim
states. -/
theorem c4_seek_back_swapped_args :
    elide_tail_bytes_file 4 4 8 (2 ^ 64 - 1) true false
        ⟨[97, 98, 99, 100, 101, 102], 1, true, true, true⟩ 1
      = FileOut.res 1 [] ∧
    bytesElideSpec 1 ([97, 98, 99, 100, 101, 102].drop 1)
      = [98, 99, 100, 101] := by
  constructor
  · simp [elide_tail_bytes_file, copy_fd]
  · simp [bytesElideSpec]

/-- C2 fails on the code: line-mode elision with `n_elide = 0` on the
3-byte input `abc` (no trailing newline).  The seekable variant's
`--n_lines` for the incomplete final line (head.c:637) wraps the
`uintmax_t` count from 0 to `2^64 - 1`, the backward scan never finds the
cut, and the call emits nothing and returns success — instead of emitting
the whole input (its last 0 logical lines removed), as the claim states.
(The streaming variant fails on the same inputs through its `memchr`
returning NULL, head.c:574-580.) -/
theorem c2_line_elision_n0_drops_input :
    elide_tail_lines_seekable 8192 true ⟨[97, 98, 99], 0, true, true, true⟩ 0
        0 3
      = (0, []) ∧
    linesElideSpec 0 [97, 98, 99] = [97, 98, 99] := by
  constructor
  · simp [elide_tail_lines_seekable, linesSeekLoop, scanBack, memrchrNl, U64]
  · simp [linesElideSpec, splitLines]

/-- C3 fails on the code: the boundary case `n_elide = 0` does not emit
the whole input for line mode.  On the 2-byte input `xy` (no trailing
newline) the seekable variant (dispatched by `elide_tail_lines_file` for
a seekable regular file) emits nothing, and the streaming variant hits
the NULL-`memchr` undefined-behaviour path (`none`), both contradicting
`n_elide = 0 emits the entire input and succeeds`. -/
theorem c3_boundary_n0_not_identity :
    elide_tail_lines_file 16 true false ⟨[120, 121], 0, true, true, true⟩ 0
      = (0, some []) ∧
    elide_tail_lines_pipe 16 0 [120, 121] = none ∧
    linesElideSpec 0 [120, 121] = [120, 121] := by
  refine ⟨?_, ?_, ?_⟩
  · simp [elide_tail_lines_file, elide_tail_lines_seekable, linesSeekLoop,
      scanBack, memrchrNl, U64]
  · simp [elide_tail_lines_pipe, linesPipeLoop, linesFlush, nthNlEnd, countNl]
  · simp [linesElideSpec, splitLines]

/-- C1 fails on the code: with `READ_BUFSIZE = 4`, threshold 8 and
`n_elide = 9`, the 8-byte input selects the ring strategy, whose
remainder step computes `x = n_read - y = 0 - 1` in `size_t`
(head.c:391-392), wrapping to `2^64 - 1`; the `fwrite` then emits the
first ring slot (the first 4 input bytes, followed in C by out-of-bounds
garbage) although the input is *shorter* than the elision count and the
correct output — produced by the seekable variant on the same bytes — is
empty. -/
theorem c1_ring_strategy_emits_garbage :
    elide_tail_bytes_pipe 4 8 (2 ^ 64 - 1) 9 [0, 1, 2, 3, 4, 5, 6, 7]
      = PipeOut.out [0, 1, 2, 3] ∧
    bytesElideSpec 9 [0, 1, 2, 3, 4, 5, 6, 7] = [] ∧
    elide_tail_bytes_file 4 4 8 (2 ^ 64 - 1) true false
        ⟨[0, 1, 2, 3, 4, 5, 6, 7], 0, true, true, true⟩ 9
      = FileOut.res 0 [] := by
  refine ⟨?_, ?_, ?_⟩
  · simp [elide_tail_bytes_pipe, ring_strategy, ringLoop, ringNBufs, U64]
  · simp [bytesElideSpec]
  · simp [elide_tail_bytes_file]

/-- C5 fails on the code: on the same 8-byte input with the same
`n_elide = 10`, the small-N double-buffer strategy emits nothing (the
input is shorter than the elision count) while the large-N ring strategy
runs its wrapped-`size_t` remainder step (`x = 0 - 2` modulo `2^64`) and
emits the first 4 input bytes — the two strategies do not produce
bit-for-bit identical output. -/
theorem c5_strategies_disagree :
    small_strategy 4 10 [0, 1, 2, 3, 4, 5, 6, 7] = [] ∧
    ring_strategy 4 10 [0, 1, 2, 3, 4, 5, 6, 7] = [0, 1, 2, 3] := by
  constructor
  · simp [small_strategy, smallLoop]
  · simp [ring_strategy, ringLoop, ringNBufs, U64]

/-- C6 counterexample: a source that claims seekability (fstat succeeds
and reports a regular file) but whose `lseek` probe fails, in byte mode
with `presume_input_pipe` unset.  The claim says the engine falls back to
the streaming variant — which on this 5-byte content with `n_elide = 1`
emits the first 4 bytes — but `elide_tail_bytes_file` (head.c:434-439)
instead reports `cannot lseek` and fails the call for that source with no
output. -/
theorem c6_counterexample_bytes_no_fallback :
    elide_tail_bytes_file 4 4 8 (2 ^ 64 - 1) true false
        ⟨[104, 101, 108, 108, 111], 0, true, true, false⟩ 1
      = FileOut.res 1 [] ∧
    elide_tail_bytes_pipe 4 8 (2 ^ 64 - 1) 1
        (Fd.content ⟨[104, 101, 108, 108, 111], 0, true, true, false⟩
          |>.drop 0)
      = PipeOut.out [104, 101, 108, 108] := by
  constructor
  · simp [elide_tail_bytes_file]
  · simp [elide_tail_bytes_pipe, small_strategy, smallLoop, U64]

/-- C6 amended: byte mode treats a source as seekable iff
`presume_input_pipe` is unset, `fstat` succeeds and the file is regular;
when such a source's `lseek` probe then fails, the call fails for that
single source (status 1, no output) with no streaming fallback.  Line
mode probes with `lseek` and selects the seekable variant iff the probe
succeeds with `start_pos < end_pos`; otherwise — including on probe
failure, or when `presume_input_pipe` forces it — it falls back to the
streaming variant for that single source. -/
theorem c6_dispatch_amended (bufsz B T sizeMax : Nat) (sinkOk : Bool)
    (fd : Fd) (n : Nat) :
    (∀ presume : Bool, (presume || !fd.fstatOk || !fd.isReg) = true →
      elide_tail_bytes_file bufsz B T sizeMax sinkOk presume fd n
        = match elide_tail_bytes_pipe B T sizeMax n (fd.content.drop fd.pos)
          with
          | .fatalLarge => .fatalLarge
          | .out o => .res 0 o) ∧
    (fd.fstatOk = true → fd.isReg = true → fd.seekOk = false →
      elide_tail_bytes_file bufsz B T sizeMax sinkOk false fd n
        = .res 1 []) ∧
    (elide_tail_lines_file bufsz sinkOk true fd n
      = (0, elide_tail_lines_pipe bufsz n (fd.content.drop fd.pos))) ∧
    (fd.seekOk = false →
      elide_tail_lines_file bufsz sinkOk false fd n
        = (0, elide_tail_lines_pipe bufsz n (fd.content.drop fd.pos))) ∧
    (fd.seekOk = true → fd.pos < fd.content.length →
      elide_tail_lines_file bufsz sinkOk false fd n
        = ((elide_tail_lines_seekable bufsz sinkOk fd n fd.pos
              fd.content.length).1,
           some (elide_tail_lines_seekable bufsz sinkOk fd n fd.pos
              fd.content.length).2)) := by
  refine ⟨?_, ?_, ?_, ?_, ?_⟩
  · intro presume hsel
    simp [elide_tail_bytes_file, hsel]
  · intro hfst hreg hseek
    simp [elide_tail_bytes_file, hfst, hreg, hseek]
  · simp [elide_tail_lines_file]
  · intro hseek
    simp [elide_tail_lines_file, hseek]
  · intro hseek hlt
    simp [elide_tail_lines_file, hseek, hlt]

/-- Witness for C6 at a concrete 2-byte regular file whose `lseek`
fails. -/
theorem c6_dispatch_amended_witness :
    elide_tail_bytes_file 4 4 8 (2 ^ 64 - 1) true false
        ⟨[97, 98], 0, true, true, false⟩ 1
      = FileOut.res 1 [] ∧
    elide_tail_lines_file 4 true false ⟨[97, 98], 0, true, true, false⟩ 1
      = (0, elide_tail_lines_pipe 4 1
          (Fd.content ⟨[97, 98], 0, true, true, false⟩ |>.drop
            (Fd.pos ⟨[97, 98], 0, true, true, false⟩))) := by
  have h := c6_dispatch_amended 4 4 8 (2 ^ 64 - 1) true
    ⟨[97, 98], 0, true, true, false⟩ 1
  exact ⟨h.2.1 rfl rfl rfl, h.2.2.2.1 rfl⟩

/-- C7 counterexample: a sink that fails every write.  On the seekable
line variant with input `a\nb\n` and `n_elide = 1`, the only output goes
through the final in-buffer `fwrite`, which the source deliberately does
not check (head.c:676-680, `Don't bother testing for failure`); the call
returns 0 (success) although the write of `a\n` failed — the claim says
any failed write makes the call return nonzero. -/
theorem c7_counterexample_unchecked_write :
    elide_tail_lines_seekable 8 false ⟨[97, 10, 98, 10], 0, true, true, true⟩
        1 0 4
      = (0, []) := by
  simp [elide_tail_lines_seekable, linesSeekLoop, scanBack, memrchrNl]

/-- Status of `linesSeekLoop` when the block in hand already starts at
`start_pos`: the only write on every remaining path is the final
in-buffer `fwrite`, whose result the source ignores (head.c:676-680), so
a failing sink yields the same status as a working one, with no
output. -/
theorem linesSeekLoop_at_start (bufsz : Nat) (fd : Fd) (s bytesRead : Nat)
    (buffer : List Nat) (nL : Nat) :
    linesSeekLoop bufsz false fd s s bytesRead buffer nL
      = ((linesSeekLoop bufsz true fd s s bytesRead buffer nL).1, []) := by
  rw [linesSeekLoop, linesSeekLoop]
  cases hscan : scanBack buffer bytesRead nL with
  | mk o k =>
    cases o with
    | some idx => simp
    | none => simp

/-- C7 amended: write failures are detected and fail the call wherever
the data flows through `copy_fd`.  `copy_fd` itself returns
`COPY_FD_WRITE_ERROR` the moment a write fails, writing nothing further;
`elide_tail_bytes_file` on a seekable source with data to emit propagates
that as status 1; and `elide_tail_lines_seekable`, when its backward scan
has found the cut and bytes before the in-memory block remain to be
copied, propagates a `copy_fd` write failure as status 1 too.  By
contrast its final in-buffer `fwrite` is deliberately unchecked
(head.c:676-680): whenever the requested range fits in a single block —
so that this `fwrite` is the only write — a failing sink still yields
status 0 with no output, detection being deferred to `close_stdout`.
With a working sink `copy_fd` writes exactly the leading `n_bytes`-bounded
portion of what the source delivered, in order, so output already written
before a detected failure stands. -/
theorem c7_write_error_amended (bufsz B T sizeMax : Nat) (e : Bool)
    (segs : List (List Nat)) (n m : Nat) (fd : Fd) (hb : 0 < bufsz) :
    (0 < n → availSegs segs ≠ [] →
      copy_fd bufsz false e segs n = ⟨CopyStatus.writeError, []⟩) ∧
    ((copy_fd bufsz true e segs n).written = (availSegs segs).take n) ∧
    (fd.pos = 0 → fd.isReg = true → fd.fstatOk = true → fd.seekOk = true →
      m < fd.content.length →
      elide_tail_bytes_file bufsz B T sizeMax false false fd m
        = FileOut.res 1 []) ∧
    (∀ (fd2 : Fd) (startPos pos bytesRead nL idx k : Nat)
        (buffer : List Nat),
      scanBack buffer bytesRead nL = (some idx, k) →
      startPos < pos →
      fd2.seekOk = true →
      fd2.content.drop startPos ≠ [] →
      linesSeekLoop bufsz false fd2 startPos pos bytesRead buffer nL
        = (1, [])) ∧
    (∀ (fd2 : Fd) (nL s e2 : Nat), s < e2 → e2 - s ≤ bufsz →
      elide_tail_lines_seekable bufsz false fd2 nL s e2
        = ((elide_tail_lines_seekable bufsz true fd2 nL s e2).1, [])) := by
  refine ⟨?_, ?_, ?_, ?_, ?_⟩
  · intro hn ha
    exact copy_fd_bad_sink bufsz e hb segs n hn ha
  · exact (copy_fd_good_spec bufsz e hb n segs).1
  · intro hpos hreg hfst hseek hm
    have hcl : fd.content ≠ [] := by
      intro h0
      rw [h0] at hm
      simp at hm
    have havail : availSegs [fd.content] = fd.content := by
      have hbe : fd.content.isEmpty = false := by
        cases h2 : fd.content with
        | nil => exact absurd h2 hcl
        | cons a l => rfl
      rw [availSegs, hbe]
      simp [availSegs]
    have hbad := copy_fd_bad_sink bufsz false hb [fd.content]
      (fd.content.length - m) (by omega) (by rw [havail]; exact hcl)
    simp [elide_tail_bytes_file, hpos, hreg, hfst, hseek, hm, Nat.not_le.mpr hm]
    rw [hbad]
    simp
  · intro fd2 startPos pos bytesRead nL idx k buffer hscan hlt hsk hdrop
    have hav : availSegs [fd2.content.drop startPos]
        = fd2.content.drop startPos := by
      have hbe : (fd2.content.drop startPos).isEmpty = false := by
        cases h2 : fd2.content.drop startPos with
        | nil => exact absurd h2 hdrop
        | cons a l => rfl
      rw [availSegs, hbe]
      simp [availSegs]
    have hbad := copy_fd_bad_sink bufsz false hb [fd2.content.drop startPos]
      (pos - startPos) (by omega) (by rw [hav]; exact hdrop)
    rw [linesSeekLoop]
    simp [hscan, hlt, hsk, hbad]
  · intro fd2 nL s e2 hse he2
    have hbz : ¬ (bufsz = 0) := by omega
    by_cases hmod : (e2 - s) % bufsz = 0
    · have hb1 : e2 - s = bufsz := by
        rcases Nat.lt_or_ge (e2 - s) bufsz with hlt | hge
        · rw [Nat.mod_eq_of_lt hlt] at hmod
          omega
        · omega
      have hps : e2 - bufsz = s := by omega
      simp only [elide_tail_lines_seekable, if_neg hbz, hmod,
        eq_self_iff_true, if_true, hps]
      cases hsk : fd2.seekOk with
      | false => simp
      | true =>
        simp only [Bool.not_true, Bool.false_eq_true, if_false]
        exact linesSeekLoop_at_start bufsz fd2 s _ _ _
    · have hlt2 : e2 - s < bufsz := by
        rcases Nat.lt_or_ge (e2 - s) bufsz with hlt | hge
        · exact hlt
        · have : e2 - s = bufsz := by omega
          rw [this, Nat.mod_self] at hmod
          exact absurd rfl hmod
      have hmm : (e2 - s) % bufsz = e2 - s := Nat.mod_eq_of_lt hlt2
      have hps : e2 - (e2 - s) = s := by omega
      simp only [elide_tail_lines_seekable, if_neg hbz, hmm, hps,
        if_neg (show ¬ (e2 - s = 0) by omega)]
      cases hsk : fd2.seekOk with
      | false => simp
      | true =>
        simp only [Bool.not_true, Bool.false_eq_true, if_false]
        exact linesSeekLoop_at_start bufsz fd2 s _ _ _

/-- Witness for C7: a one-byte copy through failing and working sinks, a
2-byte seekable file whose data write fails, the line variant's copy
stage failing on a two-block range, and its unchecked final write on a
single-block range. -/
theorem c7_write_error_amended_witness :
    0 < 2 ∧
    (copy_fd 2 false false [[5]] 1 = ⟨CopyStatus.writeError, []⟩ ∧
     (copy_fd 2 true false [[5]] 1).written = (availSegs [[5]]).take 1 ∧
     elide_tail_bytes_file 2 4 8 (2 ^ 64 - 1) false false
         ⟨[7, 8], 0, true, true, true⟩ 1
       = FileOut.res 1 [] ∧
     linesSeekLoop 2 false ⟨[97, 10, 98, 10], 0, true, true, true⟩ 0 2 2
         [98, 10] 0
       = (1, []) ∧
     elide_tail_lines_seekable 2 false ⟨[120, 10, 121, 10], 0, true, true,
         true⟩ 1 2 4
       = ((elide_tail_lines_seekable 2 true ⟨[120, 10, 121, 10], 0, true,
            true, true⟩ 1 2 4).1, [])) := by
  have h := c7_write_error_amended 2 4 8 (2 ^ 64 - 1) false [[5]] 1 1
    ⟨[7, 8], 0, true, true, true⟩ (by decide)
  refine ⟨by decide,
    h.1 (by decide) (by simp [availSegs]),
    h.2.1,
    h.2.2.1 rfl rfl rfl rfl (by decide),
    h.2.2.2.1 ⟨[97, 10, 98, 10], 0, true, true, true⟩ 0 2 2 0 1 0 [98, 10]
      (by simp [scanBack, memrchrNl]) (by decide) rfl (by decide),
    h.2.2.2.2 ⟨[120, 10, 121, 10], 0, true, true, true⟩ 1 2 4 (by decide)
      (by decide)⟩
